import Mathlib

/-!
# Verification of the SARIMA sales-forecasting pipeline

Shallow embedding of the data-preparation, forecasting, evaluation and
customer-analytics logic of the repository (src/Backend/main.py,
src/Backend/models/sarima_model.py, src/Frontend/app.py), with theorems
settling the specification claims.

Calendar dates are modelled as day numbers (`ℕ`): the code only ever uses
day-granularity date arithmetic (`pd.date_range(..., freq="D")`,
`+pd.Timedelta(days=1)`), which is exactly arithmetic on day numbers.
Monetary amounts are modelled as `ℚ`; a pandas `NaN` cell is `Option.none`.
-/

namespace Sarima

/-- One raw sales line of the input table (spec: transaction record).
`day` is the issue date as a day number, `amount` the final amount,
`client` the customer identifier (Doc. Auxiliar). -/
structure Tx where
  day : ℕ
  amount : ℚ
  client : ℕ
deriving DecidableEq

/-! ## Series Builder (main.py lines 19-30, app.py lines 30-36) -/

/-- Pandas `df["ds"].min()` over the transaction days (0 for the empty frame,
which the pipeline never reaches: `pd.date_range` raises first). -/
def minDay : List Tx → ℕ
  | [] => 0
  | t :: ts => ts.foldl (fun m u => min m u.day) t.day

/-- Pandas `df["ds"].max()` over the transaction days. -/
def maxDay : List Tx → ℕ
  | [] => 0
  | t :: ts => ts.foldl (fun m u => max m u.day) t.day

/-- Number of rows of `pd.date_range(min, max, freq="D")`. -/
def numDays (txs : List Tx) : ℕ := maxDay txs - minDay txs + 1

/-- Whether any transaction falls on day `d` (after `groupby`, day `d`
has a row iff this holds). -/
def hasTx (txs : List Tx) (d : ℕ) : Bool := txs.any fun t => t.day == d

/-- Pandas `groupby("Fecha Emisión")["Importe Final"].sum()` restricted to day `d`. -/
def sumDay (txs : List Tx) (d : ℕ) : ℚ :=
  ((txs.filter fun t => t.day == d).map Tx.amount).sum

/-- The aggregated cell for day `d` after `reindex(full_range)`:
the grouped sum when the day has transactions, `NaN` otherwise. -/
def agg (txs : List Tx) (d : ℕ) : Option ℚ :=
  if hasTx txs d then some (sumDay txs d) else none

/-- Pandas `df["y"].replace(0, np.nan)`: an exact zero becomes a missing cell. -/
def replaceZero : Option ℚ → Option ℚ
  | some v => if v = 0 then none else some v
  | none => none

/-- The `y` column right after reindexing and `replace(0, np.nan)`:
one cell per day of the closed range `[minDay, maxDay]`. -/
def rawValues (txs : List Tx) : List (Option ℚ) :=
  (List.range (numDays txs)).map fun i => replaceZero (agg txs (minDay txs + i))

/-- The non-missing values inside the trailing 7-cell window ending at
index `i` (pandas `rolling(7)` covers positions `max(0, i-6) .. i`). -/
def windowVals (ys : List (Option ℚ)) (i : ℕ) : List ℚ :=
  ((ys.take (i + 1)).drop (i + 1 - 7)).filterMap id

/-- Pandas `rolling(7, min_periods=1).mean()` at index `i`: the mean of the
non-missing values in the trailing 7-cell window, `NaN` if there are none. -/
def rollingMean (ys : List (Option ℚ)) (i : ℕ) : Option ℚ :=
  let w := windowVals ys i
  if w.isEmpty then none else some (w.sum / w.length)

/-- Pandas `df["y"].fillna(df["y"].rolling(7, min_periods=1).mean())`: each missing
cell is filled from the rolling-mean series computed on the pre-fill column. -/
def fillRoll (ys : List (Option ℚ)) : List (Option ℚ) :=
  (List.range ys.length).map fun i =>
    match ys[i]? with
    | some (some v) => some v
    | _ => rollingMean ys i

/-- The cell `fillna(method="bfill")` puts at index `i`: the first
non-missing value at or after `i`. -/
def bfillAt (ys : List (Option ℚ)) (i : ℕ) : Option ℚ :=
  ((ys.drop i).filterMap id).head?

/-- Pandas `fillna(method="bfill")`. -/
def bfill (ys : List (Option ℚ)) : List (Option ℚ) :=
  (List.range ys.length).map (bfillAt ys)

/-- The cell `fillna(method="ffill")` puts at index `i`: the last
non-missing value at or before `i`. -/
def ffillAt (ys : List (Option ℚ)) (i : ℕ) : Option ℚ :=
  ((ys.take (i + 1)).filterMap id).getLast?

/-- Pandas `fillna(method="ffill")`. -/
def ffill (ys : List (Option ℚ)) : List (Option ℚ) :=
  (List.range ys.length).map (ffillAt ys)

/-- The Series Builder's output column: rolling-mean fill, then
backward fill, then forward fill (main.py lines 28-30). -/
def imputedValues (txs : List Tx) : List (Option ℚ) :=
  ffill (bfill (fillRoll (rawValues txs)))

/-- The Series Builder's output dates: the closed day range
`pd.date_range(min, max, freq="D")`. -/
def seriesDates (txs : List Tx) : List ℕ :=
  (List.range (numDays txs)).map fun i => minDay txs + i

/-! ## Forecaster (main.py lines 36-44, sarima_model.py lines 4-8) -/

/-- The pipeline's error kinds (spec §7 taxonomy).  The reference code
erases kinds into message strings at the boundary (`{"error": str(e)}`);
the kinds below name the distinct failure points of the code. -/
inductive PipeErr where
  | schemaError
  | emptyInput
  | invalidHorizon
  | modelSelection
deriving DecidableEq

/-- Pandas `pd.date_range(last + 1 day, periods=horizon)`: the `horizon`
consecutive days starting the day after `lastDay`. -/
def forecastDates (lastDay : ℕ) (horizon : ℕ) : List ℕ :=
  (List.range horizon).map fun i => lastDay + 1 + i

/-- The call `model.predict(n_periods=horizon)` followed by the date range
(main.py lines 36-44 and sarima_model.py `entrenar_y_predecir`).
The fitted model is an opaque prediction function `pred`.  For
`horizon ≤ 0` the underlying library raises (statsmodels rejects a
prediction index with `end` before `start`), which the spec taxonomy
names `InvalidHorizonError`; nothing is returned in that case. -/
def forecaster (pred : ℕ → ℚ) (lastDay : ℕ) (horizon : ℤ) :
    Except PipeErr (List (ℕ × ℚ)) :=
  if horizon ≤ 0 then .error .invalidHorizon
  else .ok ((List.range horizon.toNat).map fun i => (lastDay + 1 + i, pred i))

/-! ## The /predict pipeline (main.py `predict`) -/

/-- The tabular input file: presence flags for the two required columns
("Fecha Emisión", "Importe Final") and the parsed rows. -/
structure InputTable where
  hasFecha : Bool
  hasImporte : Bool
  rows : List Tx

/-- The endpoint's success payload: `historico` (date, imputed amount)
and `forecast` (date, prediction). -/
structure PredictOutput where
  historico : List (ℕ × Option ℚ)
  forecast : List (ℕ × ℚ)
deriving DecidableEq

/-- The endpoint `GET /predict` (main.py lines 10-53): schema check, then the
empty check (`pd.date_range(NaT, NaT)` raises on a frame with no rows), then
series building, model fit and forecast.  The fit `auto_arima(df["y"], ...)`
(main.py line 35) validates its input series via `check_endog` and raises
`ValueError` if any cell is `NaN` — before the forecast is attempted —
modelled as the fit-failure kind `modelSelection`.  The successful fit is the
opaque `pred`; a fit that fails on a `NaN`-free series (no viable candidate
order) is not modelled, and no theorem below relies on the success path. -/
def predict (pred : ℕ → ℚ) (inp : InputTable) (horizon : ℤ) :
    Except PipeErr PredictOutput :=
  if !(inp.hasFecha && inp.hasImporte) then .error .schemaError
  else if inp.rows.isEmpty then .error .emptyInput
  else if (imputedValues inp.rows).any (fun v => v.isNone) then .error .modelSelection
  else
    match forecaster pred (maxDay inp.rows) horizon with
    | .error e => .error e
    | .ok fc => .ok ⟨(seriesDates inp.rows).zip (imputedValues inp.rows), fc⟩

/-! ## Evaluator (app.py lines 100-106) -/

/-- Value of a float cell arising in the metric computations: a finite
rational, a signed infinity (numpy division of a nonzero value by zero),
or `NaN` (numpy `0/0`). -/
inductive PFloat where
  | fin : ℚ → PFloat
  | posInf
  | negInf
  | nan
deriving DecidableEq

/-- numpy division `e / a` of finite values: `x/0` is `±inf` for
nonzero `x` (with a runtime warning, not an exception) and `NaN` for
`x = 0`. -/
def pdiv (e a : ℚ) : PFloat :=
  if a = 0 then (if e = 0 then .nan else if 0 < e then .posInf else .negInf)
  else .fin (e / a)

/-- Absolute value `abs` on float cells. -/
def pabs : PFloat → PFloat
  | .fin q => .fin |q|
  | .posInf => .posInf
  | .negInf => .posInf
  | .nan => .nan

/-- IEEE-style addition on float cells. -/
def padd : PFloat → PFloat → PFloat
  | .nan, _ => .nan
  | _, .nan => .nan
  | .fin a, .fin b => .fin (a + b)
  | .fin _, .posInf => .posInf
  | .fin _, .negInf => .negInf
  | .posInf, .fin _ => .posInf
  | .negInf, .fin _ => .negInf
  | .posInf, .posInf => .posInf
  | .negInf, .negInf => .negInf
  | .posInf, .negInf => .nan
  | .negInf, .posInf => .nan

def psum (l : List PFloat) : PFloat := l.foldr padd (.fin 0)

/-- Division of a float cell by a (positive) count. -/
def pdivNat (x : PFloat) (n : ℕ) : PFloat :=
  match x with
  | .fin q => .fin (q / n)
  | .posInf => .posInf
  | .negInf => .negInf
  | .nan => .nan

def isNan : PFloat → Bool
  | .nan => true
  | _ => false

/-- pandas `Series.mean()`: `NaN` entries are skipped (`skipna=True`
default); the mean of no remaining entries is `NaN`. -/
def pmean (l : List PFloat) : PFloat :=
  let l' := l.filter fun x => !isNan x
  if l'.isEmpty then .nan else pdivNat (psum l') l'.length

/-- Multiplication by the scalar 100 (sign-preserving). -/
def pmul100 : PFloat → PFloat
  | .fin q => .fin (q * 100)
  | .posInf => .posInf
  | .negInf => .negInf
  | .nan => .nan

/-- One MAPE term `abs(error/actual)` where `error = actual - fitted`
(app.py lines 103 and 106). -/
def mapeTerm (a yhat : ℚ) : PFloat := pabs (pdiv (a - yhat) a)

/-- The metric `mape = (abs(df["error"]/df["Importe Final"])).mean()*100` over the
evaluation window of actual and fitted values (app.py line 106). -/
def mape (actual fitted : List ℚ) : PFloat :=
  pmul100 (pmean (List.zipWith mapeTerm actual fitted))

/-! ## Customer Analytics (app.py lines 132-134) -/

/-- Largest customer identifier occurring in the input (0 if none). -/
def maxClient (txs : List Tx) : ℕ := txs.foldl (fun m t => max m t.client) 0

/-- The distinct customer identifiers in ascending order: pandas
`groupby` sorts its group keys. -/
def clientKeys (txs : List Tx) : List ℕ :=
  (List.range (maxClient txs + 1)).filter fun c => txs.any fun t => t.client == c

/-- Total sales of customer `c`. -/
def clientTotal (txs : List Tx) (c : ℕ) : ℚ :=
  ((txs.filter fun t => t.client == c).map Tx.amount).sum

/-- Pandas `groupby("Doc. Auxiliar")["Importe Final"].sum()`: one (identifier,
total) pair per customer, keys ascending.  The code groups by the
(identifier, display-name) pair; the display name is determined by the
identifier, so grouping is modelled on the identifier alone. -/
def clientTotals (txs : List Tx) : List (ℕ × ℚ) :=
  (clientKeys txs).map fun c => (c, clientTotal txs c)

/-- One step of stable insertion by amount: the new pair goes in front
of the first pair whose amount is not smaller. -/
def ordInsertAmt (a : ℕ × ℚ) : List (ℕ × ℚ) → List (ℕ × ℚ)
  | [] => [a]
  | b :: l => if a.2 ≤ b.2 then a :: b :: l else b :: ordInsertAmt a l

/-- Ascending sort of (identifier, total) pairs by total.  pandas'
default `kind="quicksort"` argsort (numpy introsort) is NOT stable
beyond its small-array insertion-sort threshold, so the order of equal
amounts is implementation-defined; this embedding fixes one concrete
refinement of it — a stable insertion sort, which coincides with numpy
on small arrays such as the counterexample below.  Only properties that
do not depend on the order among equal amounts are read off it for
arbitrary inputs. -/
def sortByAmt : List (ℕ × ℚ) → List (ℕ × ℚ)
  | [] => []
  | a :: l => ordInsertAmt a (sortByAmt l)

/-- pandas `sort_values(ascending=False)`: an ascending argsort is
computed and the index array is reversed (`nargsort`:
`indexer = indexer[::-1]`), so the descending order is the reverse of
the ascending order — no tie-break on the index is applied. -/
def sortDescAmt (l : List (ℕ × ℚ)) : List (ℕ × ℚ) := (sortByAmt l).reverse

/-- The table `top_clientes` (app.py lines 132-134): per-customer totals, sorted
by total descending, first 10 kept (`.head(10)`). -/
def top_clientes (txs : List Tx) : List (ℕ × ℚ) :=
  (sortDescAmt (clientTotals txs)).take 10

/-! ## Concrete inputs used by scenario claims -/

/-- The spec's imputation scenario: seven transactions on consecutive days
with amounts `[10, 0, 20, 10, 0, 10, 30]`. -/
def scenTxs : List Tx :=
  [⟨0, 10, 0⟩, ⟨1, 0, 0⟩, ⟨2, 20, 0⟩, ⟨3, 10, 0⟩, ⟨4, 0, 0⟩, ⟨5, 10, 0⟩, ⟨6, 30, 0⟩]

/-- Eight transactions on consecutive days with amounts
`[70, 7, 7, 7, 7, 7, 7, 0]`: day 8 is missing, day 1 lies seven days back. -/
def c2Txs : List Tx :=
  [⟨0, 70, 0⟩, ⟨1, 7, 0⟩, ⟨2, 7, 0⟩, ⟨3, 7, 0⟩, ⟨4, 7, 0⟩, ⟨5, 7, 0⟩, ⟨6, 7, 0⟩, ⟨7, 0, 0⟩]

/-- Formalisation of claim C2's wording "trailing rolling average over the
preceding 7 days (minimum 1 day of data)": the mean of the non-missing
values at positions `i-7 .. i-1`, kept for comparison against the code's
`rollingMean` (whose 7-cell window ends at position `i` itself). -/
def rollingMeanPrec7 (ys : List (Option ℚ)) (i : ℕ) : Option ℚ :=
  let w := ((ys.take i).drop (i - 7)).filterMap id
  if w.isEmpty then none else some (w.sum / w.length)

/-! ## Helper lemmas on the imputation chain -/

theorem length_fillRoll (ys : List (Option ℚ)) : (fillRoll ys).length = ys.length := by
  simp [fillRoll]

theorem length_bfill (ys : List (Option ℚ)) : (bfill ys).length = ys.length := by
  simp [bfill]

theorem length_ffill (ys : List (Option ℚ)) : (ffill ys).length = ys.length := by
  simp [ffill]

theorem length_rawValues (txs : List Tx) : (rawValues txs).length = numDays txs := by
  simp [rawValues]

theorem getElem_bfill (ys : List (Option ℚ)) (i : ℕ) (h : i < (bfill ys).length) :
    (bfill ys)[i] = bfillAt ys i := by
  simp [bfill]

theorem getElem_ffill (ys : List (Option ℚ)) (i : ℕ) (h : i < (ffill ys).length) :
    (ffill ys)[i] = ffillAt ys i := by
  simp [ffill]

theorem fillRoll_getElem_some (ys : List (Option ℚ)) (i : ℕ) (v : ℚ)
    (hi : i < ys.length) (hv : ys[i] = some v) :
    ∀ h : i < (fillRoll ys).length, (fillRoll ys)[i] = some v := by
  intro h
  simp only [fillRoll, List.getElem_map, List.getElem_range]
  rw [List.getElem?_eq_getElem hi, hv]

/-- If `ys` has a non-missing cell at an index `≥ i`, backward fill puts a
non-missing cell at `i`. -/
theorem bfillAt_isSome (ys : List (Option ℚ)) (i k : ℕ) (hk : k < ys.length)
    (hik : i ≤ k) (hs : ys[k].isSome) : (bfillAt ys i).isSome := by
  rcases Option.isSome_iff_exists.mp hs with ⟨v, hv⟩
  have hk' : k - i < (ys.drop i).length := by
    simp only [List.length_drop]; omega
  have hmem : some v ∈ ys.drop i := by
    have : (ys.drop i)[k - i] = ys[k] := by
      rw [List.getElem_drop]
      congr 1
      omega
    rw [← hv, ← this]
    exact List.getElem_mem hk'
  have hvm : v ∈ (ys.drop i).filterMap id := List.mem_filterMap.mpr ⟨some v, hmem, rfl⟩
  have hne : (ys.drop i).filterMap id ≠ [] := List.ne_nil_of_mem hvm
  unfold bfillAt
  exact List.head?_isSome.mpr hne

/-- If `ys` has a non-missing cell at an index `≤ i`, forward fill puts a
non-missing cell at `i`. -/
theorem ffillAt_isSome (ys : List (Option ℚ)) (i k : ℕ) (hk : k < ys.length)
    (hki : k ≤ i) (hs : ys[k].isSome) : (ffillAt ys i).isSome := by
  rcases Option.isSome_iff_exists.mp hs with ⟨v, hv⟩
  have hk' : k < (ys.take (i + 1)).length := by
    simp only [List.length_take]; omega
  have hmem : some v ∈ ys.take (i + 1) := by
    have : (ys.take (i + 1))[k] = ys[k] := List.getElem_take ys
    rw [← hv, ← this]
    exact List.getElem_mem hk'
  have hvm : v ∈ (ys.take (i + 1)).filterMap id := List.mem_filterMap.mpr ⟨some v, hmem, rfl⟩
  have hne : (ys.take (i + 1)).filterMap id ≠ [] := List.ne_nil_of_mem hvm
  unfold ffillAt
  exact List.getLast?_isSome.mpr hne

/-- Backward fill followed by forward fill leaves no missing cell as soon
as one cell of `ys` is non-missing. -/
theorem ffill_bfill_isSome (ys : List (Option ℚ)) (k : ℕ) (hk : k < ys.length)
    (hs : ys[k].isSome) : ∀ v ∈ ffill (bfill ys), v.isSome := by
  intro v hv
  simp only [ffill, List.mem_map, List.mem_range] at hv
  rcases hv with ⟨i, hi, rfl⟩
  rw [length_bfill] at hi
  have hmin_lt : min i k < (bfill ys).length := by rw [length_bfill]; omega
  have hb : ((bfill ys)[min i k]).isSome := by
    rw [getElem_bfill]
    exact bfillAt_isSome ys (min i k) k hk (by omega) hs
  exact ffillAt_isSome (bfill ys) i (min i k) hmin_lt (by omega) hb

/-- Every value inside the trailing window is a non-missing value of `ys`. -/
theorem windowVals_subset (ys : List (Option ℚ)) (i : ℕ) (q : ℚ)
    (hq : q ∈ windowVals ys i) : some q ∈ ys := by
  simp only [windowVals, List.mem_filterMap, id] at hq
  rcases hq with ⟨o, ho, rfl⟩
  exact List.mem_of_mem_take (List.mem_of_mem_drop ho)

/-- A rolling mean of positive values is positive. -/
theorem rollingMean_pos (ys : List (Option ℚ)) (i : ℕ) (m : ℚ)
    (hpos : ∀ q : ℚ, some q ∈ ys → 0 < q) (hm : rollingMean ys i = some m) : 0 < m := by
  unfold rollingMean at hm
  by_cases he : (windowVals ys i).isEmpty
  · simp [he] at hm
  · simp only [he, if_false] at hm
    have hne : windowVals ys i ≠ [] := by
      simpa [List.isEmpty_iff] using he
    have hsum : 0 < (windowVals ys i).sum :=
      List.sum_pos _ (fun q hq => hpos q (windowVals_subset ys i q hq)) hne
    have hlen : (0 : ℚ) < (windowVals ys i).length := by
      have := List.length_pos.mpr hne
      exact_mod_cast this
    have hmv : (windowVals ys i).sum / ((windowVals ys i).length : ℚ) = m := by
      injection hm
    rw [← hmv]
    exact div_pos hsum hlen

/-- The rolling fill only writes positive values when all non-missing
cells of `ys` are positive. -/
theorem fillRoll_pos (ys : List (Option ℚ))
    (hpos : ∀ q : ℚ, some q ∈ ys → 0 < q) :
    ∀ q : ℚ, some q ∈ fillRoll ys → 0 < q := by
  intro q hq
  simp only [fillRoll, List.mem_map, List.mem_range] at hq
  rcases hq with ⟨i, hi, heq⟩
  rcases h : ys[i]? with _ | o
  · rw [h] at heq; exact rollingMean_pos ys i q hpos heq
  · rcases o with _ | v
    · rw [h] at heq; exact rollingMean_pos ys i q hpos heq
    · rw [h] at heq
      have hmem : some v ∈ ys := by
        have := List.getElem?_eq_some_iff.mp h
        rcases this with ⟨hlt, hg⟩
        rw [← hg]; exact List.getElem_mem hlt
      cases heq
      exact hpos q hmem

/-- Backward fill only copies non-missing values already present in `ys`. -/
theorem bfill_somes_subset (ys : List (Option ℚ)) (q : ℚ)
    (hq : some q ∈ bfill ys) : some q ∈ ys := by
  simp only [bfill, List.mem_map, List.mem_range] at hq
  rcases hq with ⟨i, _, hi⟩
  unfold bfillAt at hi
  have hmem : q ∈ (ys.drop i).filterMap id := List.mem_of_mem_head? (Option.mem_def.mpr hi)
  rcases List.mem_filterMap.mp hmem with ⟨o, ho, hid⟩
  cases hid
  exact List.mem_of_mem_drop ho

/-- Forward fill only copies non-missing values already present in `ys`. -/
theorem ffill_somes_subset (ys : List (Option ℚ)) (q : ℚ)
    (hq : some q ∈ ffill ys) : some q ∈ ys := by
  simp only [ffill, List.mem_map, List.mem_range] at hq
  rcases hq with ⟨i, _, hi⟩
  unfold ffillAt at hi
  have hmem : q ∈ (ys.take (i + 1)).filterMap id := List.mem_of_getLast?_eq_some hi
  rcases List.mem_filterMap.mp hmem with ⟨o, ho, hid⟩
  cases hid
  exact List.mem_of_mem_take ho

theorem foldl_min_le_init (l : List Tx) (a : ℕ) :
    l.foldl (fun m u => min m u.day) a ≤ a := by
  induction l generalizing a with
  | nil => simp
  | cons t ts ih =>
    simp only [List.foldl_cons]
    exact le_trans (ih (min a t.day)) (min_le_left _ _)

theorem foldl_min_le_mem (l : List Tx) (a : ℕ) (t : Tx) (ht : t ∈ l) :
    l.foldl (fun m u => min m u.day) a ≤ t.day := by
  induction l generalizing a with
  | nil => cases ht
  | cons u us ih =>
    simp only [List.foldl_cons]
    rcases List.mem_cons.mp ht with rfl | h
    · exact le_trans (foldl_min_le_init us _) (min_le_right _ _)
    · exact ih _ h

theorem init_le_foldl_max (l : List Tx) (a : ℕ) :
    a ≤ l.foldl (fun m u => max m u.day) a := by
  induction l generalizing a with
  | nil => simp
  | cons t ts ih =>
    simp only [List.foldl_cons]
    exact le_trans (le_max_left _ _) (ih (max a t.day))

theorem mem_le_foldl_max (l : List Tx) (a : ℕ) (t : Tx) (ht : t ∈ l) :
    t.day ≤ l.foldl (fun m u => max m u.day) a := by
  induction l generalizing a with
  | nil => cases ht
  | cons u us ih =>
    simp only [List.foldl_cons]
    rcases List.mem_cons.mp ht with rfl | h
    · exact le_trans (le_max_right _ _) (init_le_foldl_max us _)
    · exact ih _ h

/-- Every transaction's day is at or after `df["ds"].min()`. -/
theorem minDay_le_of_mem (txs : List Tx) (t : Tx) (ht : t ∈ txs) :
    minDay txs ≤ t.day := by
  cases txs with
  | nil => cases ht
  | cons u us =>
    unfold minDay
    rcases List.mem_cons.mp ht with rfl | h
    · exact foldl_min_le_init us t.day
    · exact foldl_min_le_mem us u.day t h

/-- Every transaction's day is at or before `df["ds"].max()`. -/
theorem le_maxDay_of_mem (txs : List Tx) (t : Tx) (ht : t ∈ txs) :
    t.day ≤ maxDay txs := by
  cases txs with
  | nil => cases ht
  | cons u us =>
    unfold maxDay
    rcases List.mem_cons.mp ht with rfl | h
    · exact init_le_foldl_max us t.day
    · exact mem_le_foldl_max us u.day t h

theorem getElem_rawValues (txs : List Tx) (k : ℕ) (hk : k < (rawValues txs).length) :
    (rawValues txs)[k] = replaceZero (agg txs (minDay txs + k)) := by
  simp [rawValues]

/-- A transaction day with a nonzero grouped sum yields a non-missing cell
of the reindexed, zero-replaced column. -/
theorem rawValues_some_of_nonzero (txs : List Tx) (t : Tx) (ht : t ∈ txs)
    (hnz : sumDay txs t.day ≠ 0) :
    ∃ k, ∃ hk : k < (rawValues txs).length,
      (rawValues txs)[k] = some (sumDay txs t.day) := by
  have hmin := minDay_le_of_mem txs t ht
  have hmax := le_maxDay_of_mem txs t ht
  refine ⟨t.day - minDay txs, ?_, ?_⟩
  · rw [length_rawValues]
    unfold numDays
    omega
  · rw [getElem_rawValues]
    have hday : minDay txs + (t.day - minDay txs) = t.day := by omega
    rw [hday]
    have htx : hasTx txs t.day = true := by
      unfold hasTx
      exact List.any_eq_true.mpr ⟨t, ht, by simp⟩
    unfold agg
    rw [if_pos htx]
    simp only [replaceZero]
    rw [if_neg hnz]

/-- Nonnegative transaction amounts make every non-missing cell of the
zero-replaced column strictly positive. -/
theorem rawValues_pos (txs : List Tx) (hnn : ∀ t ∈ txs, 0 ≤ t.amount) :
    ∀ q : ℚ, some q ∈ rawValues txs → 0 < q := by
  intro q hq
  simp only [rawValues, List.mem_map, List.mem_range] at hq
  rcases hq with ⟨i, _, heq⟩
  unfold agg at heq
  by_cases htx : hasTx txs (minDay txs + i)
  · rw [if_pos htx] at heq
    simp only [replaceZero] at heq
    by_cases hz : sumDay txs (minDay txs + i) = 0
    · rw [if_pos hz] at heq
      cases heq
    · rw [if_neg hz] at heq
      have hsq : sumDay txs (minDay txs + i) = q := by injection heq
      have hpos : 0 ≤ sumDay txs (minDay txs + i) := by
        unfold sumDay
        refine List.sum_nonneg ?_
        intro a ha
        rcases List.mem_map.mp ha with ⟨u, hu, rfl⟩
        exact hnn u (List.mem_of_mem_filter hu)
      rw [hsq] at hpos hz
      exact lt_of_le_of_ne hpos (Ne.symm hz)
  · rw [if_neg htx] at heq
    simp only [replaceZero] at heq
    cases heq

/-- Grouped sums that vanish on every transaction day make the whole
zero-replaced column missing. -/
theorem rawValues_all_none (txs : List Tx)
    (hz : ∀ t ∈ txs, sumDay txs t.day = 0) :
    ∀ o ∈ rawValues txs, o = none := by
  intro o ho
  simp only [rawValues, List.mem_map, List.mem_range] at ho
  rcases ho with ⟨i, _, heq⟩
  by_cases htx : hasTx txs (minDay txs + i)
  · rcases List.any_eq_true.mp htx with ⟨t, ht, hday⟩
    have hday' : t.day = minDay txs + i := by simpa using hday
    have : sumDay txs (minDay txs + i) = 0 := hday' ▸ hz t ht
    rw [← heq]
    unfold agg
    rw [if_pos htx]
    simp only [replaceZero]
    rw [if_pos this]
  · rw [← heq]
    unfold agg
    rw [if_neg htx]
    rfl

theorem filterMap_id_eq_nil (l : List (Option ℚ)) (h : ∀ o ∈ l, o = none) :
    l.filterMap id = [] := by
  induction l with
  | nil => rfl
  | cons o t ih =>
    have ho : o = none := h o (List.mem_cons_self o t)
    subst ho
    simpa using ih fun o' ho' => h o' (List.mem_cons_of_mem _ ho')

theorem rollingMean_all_none (ys : List (Option ℚ)) (i : ℕ)
    (h : ∀ o ∈ ys, o = none) : rollingMean ys i = none := by
  have hw : windowVals ys i = [] := by
    unfold windowVals
    exact filterMap_id_eq_nil _ fun o ho =>
      h o (List.mem_of_mem_take (List.mem_of_mem_drop ho))
  simp [rollingMean, hw]

theorem fillRoll_all_none (ys : List (Option ℚ)) (h : ∀ o ∈ ys, o = none) :
    ∀ o ∈ fillRoll ys, o = none := by
  intro o ho
  simp only [fillRoll, List.mem_map, List.mem_range] at ho
  rcases ho with ⟨i, hi, heq⟩
  rcases hg : ys[i]? with _ | o'
  · rw [hg] at heq
    rw [← heq]
    exact rollingMean_all_none ys i h
  · have ho' : o' = none := by
      rcases List.getElem?_eq_some_iff.mp hg with ⟨hlt, hval⟩
      exact h o' (hval ▸ List.getElem_mem hlt)
    subst ho'
    rw [hg] at heq
    rw [← heq]
    exact rollingMean_all_none ys i h

theorem bfill_all_none (ys : List (Option ℚ)) (h : ∀ o ∈ ys, o = none) :
    ∀ o ∈ bfill ys, o = none := by
  intro o ho
  simp only [bfill, List.mem_map, List.mem_range] at ho
  rcases ho with ⟨i, _, heq⟩
  rw [← heq]
  unfold bfillAt
  rw [filterMap_id_eq_nil _ fun o' ho' => h o' (List.mem_of_mem_drop ho')]
  rfl

theorem ffill_all_none (ys : List (Option ℚ)) (h : ∀ o ∈ ys, o = none) :
    ∀ o ∈ ffill ys, o = none := by
  intro o ho
  simp only [ffill, List.mem_map, List.mem_range] at ho
  rcases ho with ⟨i, _, heq⟩
  rw [← heq]
  unfold ffillAt
  rw [filterMap_id_eq_nil _ fun o' ho' => h o' (List.mem_of_mem_take ho')]
  rfl

/-! ## Helper lemmas on MAPE float cells -/

theorem mapeTerm_ne_negInf (a f : ℚ) : mapeTerm a f ≠ .negInf := by
  unfold mapeTerm
  cases h : pdiv (a - f) a <;> simp [pabs, h]

theorem mapeTerm_posInf (a f : ℚ) (ha : a = 0) (hf : f ≠ a) :
    mapeTerm a f = .posInf := by
  subst ha
  unfold mapeTerm pdiv
  rw [if_pos rfl]
  have h1 : (0 : ℚ) - f ≠ 0 := by
    intro h
    exact hf (by linarith)
  rw [if_neg h1]
  by_cases h2 : 0 < 0 - f
  · rw [if_pos h2]; rfl
  · rw [if_neg h2]; rfl

theorem psum_ne_bad (l : List PFloat) (h1 : ∀ x ∈ l, x ≠ .negInf)
    (h2 : ∀ x ∈ l, x ≠ .nan) : psum l ≠ .negInf ∧ psum l ≠ .nan := by
  induction l with
  | nil => exact ⟨by simp [psum], by simp [psum]⟩
  | cons x t ih =>
    have hx1 := h1 x (List.mem_cons_self x t)
    have hx2 := h2 x (List.mem_cons_self x t)
    have iht := ih (fun y hy => h1 y (List.mem_cons_of_mem _ hy))
      (fun y hy => h2 y (List.mem_cons_of_mem _ hy))
    have hps : psum (x :: t) = padd x (psum t) := rfl
    rw [hps]
    rcases hpt : psum t with q | _ | _ | _
    · cases x <;> simp_all [padd]
    · cases x <;> simp_all [padd]
    · exact absurd hpt iht.1
    · exact absurd hpt iht.2

theorem psum_posInf (l : List PFloat) (hmem : PFloat.posInf ∈ l)
    (h1 : ∀ x ∈ l, x ≠ .negInf) (h2 : ∀ x ∈ l, x ≠ .nan) :
    psum l = .posInf := by
  induction l with
  | nil => cases hmem
  | cons x t ih =>
    have ht1 : ∀ y ∈ t, y ≠ PFloat.negInf := fun y hy => h1 y (List.mem_cons_of_mem _ hy)
    have ht2 : ∀ y ∈ t, y ≠ PFloat.nan := fun y hy => h2 y (List.mem_cons_of_mem _ hy)
    have hbad := psum_ne_bad t ht1 ht2
    have hps : psum (x :: t) = padd x (psum t) := rfl
    rw [hps]
    rcases List.mem_cons.mp hmem with rfl | hm
    · rcases hpt : psum t with q | _ | _ | _
      · rfl
      · rfl
      · exact absurd hpt hbad.1
      · exact absurd hpt hbad.2
    · rw [ih hm ht1 ht2]
      rcases hx : x with q | _ | _ | _
      · rfl
      · rfl
      · exact absurd rfl (hx ▸ h1 x (List.mem_cons_self x t))
      · exact absurd rfl (hx ▸ h2 x (List.mem_cons_self x t))

/-! ## Helper lemmas on the customer sort -/

theorem mem_ordInsertAmt (a c : ℕ × ℚ) (l : List (ℕ × ℚ)) :
    c ∈ ordInsertAmt a l ↔ c = a ∨ c ∈ l := by
  induction l with
  | nil => simp [ordInsertAmt]
  | cons b t ih =>
    unfold ordInsertAmt
    by_cases h : a.2 ≤ b.2
    · rw [if_pos h]
      simp only [List.mem_cons]
    · rw [if_neg h]
      simp only [List.mem_cons, ih]
      tauto

/-- The ascending-by-amount lexicographic order the stable sort
establishes on pairs with pairwise-distinct ascending identifiers. -/
def AscAmt (a b : ℕ × ℚ) : Prop := a.2 < b.2 ∨ (a.2 = b.2 ∧ a.1 < b.1)

theorem AscAmt.le_snd {a b : ℕ × ℚ} (h : AscAmt a b) : a.2 ≤ b.2 := by
  rcases h with h | ⟨h, _⟩
  · exact le_of_lt h
  · exact le_of_eq h

theorem ordInsertAmt_pairwise (a : ℕ × ℚ) (l : List (ℕ × ℚ))
    (hl : l.Pairwise AscAmt) (hid : ∀ b ∈ l, a.1 < b.1) :
    (ordInsertAmt a l).Pairwise AscAmt := by
  induction l with
  | nil => simp [ordInsertAmt]
  | cons b t ih =>
    rw [List.pairwise_cons] at hl
    unfold ordInsertAmt
    by_cases h : a.2 ≤ b.2
    · rw [if_pos h]
      rw [List.pairwise_cons]
      refine ⟨?_, List.pairwise_cons.mpr hl⟩
      intro c hc
      have hac : a.2 ≤ c.2 := by
        rcases List.mem_cons.mp hc with rfl | hct
        · exact h
        · exact le_trans h (hl.1 c hct).le_snd
      rcases lt_or_eq_of_le hac with hlt | heq
      · exact Or.inl hlt
      · exact Or.inr ⟨heq, hid c hc⟩
    · rw [if_neg h]
      rw [List.pairwise_cons]
      constructor
      · intro c hc
        rcases (mem_ordInsertAmt a c t).mp hc with rfl | hct
        · exact Or.inl (lt_of_not_le h)
        · exact hl.1 c hct
      · exact ih hl.2 fun c hc => hid c (List.mem_cons_of_mem _ hc)

theorem mem_sortByAmt (c : ℕ × ℚ) (l : List (ℕ × ℚ)) :
    c ∈ sortByAmt l ↔ c ∈ l := by
  induction l with
  | nil => simp [sortByAmt]
  | cons a t ih =>
    unfold sortByAmt
    rw [mem_ordInsertAmt]
    simp [List.mem_cons, ih]

theorem sortByAmt_pairwise (l : List (ℕ × ℚ))
    (hl : l.Pairwise fun a b => a.1 < b.1) :
    (sortByAmt l).Pairwise AscAmt := by
  induction l with
  | nil => simp [sortByAmt]
  | cons a t ih =>
    rw [List.pairwise_cons] at hl
    unfold sortByAmt
    refine ordInsertAmt_pairwise a (sortByAmt t) (ih hl.2) ?_
    intro b hb
    exact hl.1 b ((mem_sortByAmt b t).mp hb)

/-- The grouped per-customer totals carry strictly ascending identifiers. -/
theorem clientTotals_pairwise (txs : List Tx) :
    (clientTotals txs).Pairwise fun a b => a.1 < b.1 := by
  unfold clientTotals clientKeys
  rw [List.pairwise_map]
  exact (List.pairwise_lt_range _).filter _

/-! ## Claims C3-C6 -/

/-- C3: for every horizon `H ≥ 1` and every fitted model and series last
date, the Forecaster succeeds with exactly `H` records whose dates are the
consecutive calendar days starting the day immediately after the last date. -/
theorem C3_forecast_dates (pred : ℕ → ℚ) (lastDay : ℕ) (H : ℕ) (hH : 1 ≤ H) :
    ∃ recs : List (ℕ × ℚ),
      forecaster pred lastDay (H : ℤ) = .ok recs ∧
      recs.length = H ∧
      (∀ i : ℕ, ∀ h : i < recs.length, (recs.get ⟨i, h⟩).1 = lastDay + 1 + i) := by
  refine ⟨(List.range H).map fun i => (lastDay + 1 + i, pred i), ?_, ?_, ?_⟩
  · unfold forecaster
    rw [if_neg (by omega)]
    simp
  · simp
  · intro i h
    simp

/-- Witness for C3 at a concrete horizon. -/
theorem C3_witness :
    ∃ recs : List (ℕ × ℚ),
      forecaster (fun _ => (0 : ℚ)) 10 ((3 : ℕ) : ℤ) = .ok recs ∧
      recs.length = 3 ∧
      (∀ i : ℕ, ∀ h : i < recs.length, (recs.get ⟨i, h⟩).1 = 10 + 1 + i) :=
  C3_forecast_dates (fun _ => (0 : ℚ)) 10 3 (by decide)

/-- C4: for every horizon ≤ 0 the Forecaster fails with
`InvalidHorizonError` instead of returning an empty or partial forecast. -/
theorem C4_invalid_horizon (pred : ℕ → ℚ) (lastDay : ℕ) (h : ℤ) (hh : h ≤ 0) :
    forecaster pred lastDay h = .error .invalidHorizon := by
  unfold forecaster
  rw [if_pos hh]

/-- Witness for C4 at horizon 0. -/
theorem C4_witness :
    forecaster (fun _ => (0 : ℚ)) 5 0 = .error .invalidHorizon :=
  C4_invalid_horizon (fun _ => (0 : ℚ)) 5 0 (by decide)

/-- C5: a schema-valid input with zero transaction rows makes the pipeline
fail with `EmptyInputError`; no series is built and no model is fit. -/
theorem C5_empty_input (pred : ℕ → ℚ) (horizon : ℤ) (inp : InputTable)
    (hf : inp.hasFecha = true) (hi : inp.hasImporte = true)
    (hrows : inp.rows = []) :
    predict pred inp horizon = .error .emptyInput := by
  unfold predict
  rw [hf, hi, hrows]
  simp

/-- Witness for C5 on a concrete empty input. -/
theorem C5_witness :
    predict (fun _ => (0 : ℚ)) ⟨true, true, []⟩ 14 = .error .emptyInput :=
  C5_empty_input (fun _ => (0 : ℚ)) 14 ⟨true, true, []⟩ rfl rfl rfl

/-- C6: an input table missing the issue-date column or the final-amount
column makes the pipeline fail with `SchemaError`; no series or forecast
is produced. -/
theorem C6_schema_error (pred : ℕ → ℚ) (horizon : ℤ) (inp : InputTable)
    (h : inp.hasFecha = false ∨ inp.hasImporte = false) :
    predict pred inp horizon = .error .schemaError := by
  unfold predict
  rcases h with h | h <;> rw [h] <;> simp

/-- Witness for C6 on a concrete column-less input. -/
theorem C6_witness :
    predict (fun _ => (0 : ℚ)) ⟨false, true, [⟨0, 1, 0⟩]⟩ 14 = .error .schemaError :=
  C6_schema_error (fun _ => (0 : ℚ)) 14 ⟨false, true, [⟨0, 1, 0⟩]⟩ (Or.inl rfl)

/-! ## Claim C1 -/

/-- C1 fails as stated: for the non-empty input of one transaction of
amount 0, `replace(0, np.nan)` erases the only value, every fill source is
empty, and the single output row's sales amount is missing. -/
theorem C1_counterexample :
    ([(⟨0, 0, 0⟩ : Tx)] : List Tx) ≠ [] ∧
    imputedValues [(⟨0, 0, 0⟩ : Tx)] = [none] := by
  refine ⟨by simp, ?_⟩
  norm_num [imputedValues, ffill, bfill, fillRoll, ffillAt, bfillAt, rollingMean, windowVals,
    rawValues, numDays, minDay, maxDay, agg, hasTx, sumDay, replaceZero, List.range_succ]

/-- C1 (amended): for every non-empty input the Series Builder's output
has exactly `(max_date - min_date).days + 1` rows whose dates are the
consecutive days `min_date + i`; and provided at least one day's
aggregated amount is nonzero, no row's sales amount is missing. -/
theorem C1_series_shape (txs : List Tx) (hne : txs ≠ []) :
    (imputedValues txs).length = maxDay txs - minDay txs + 1 ∧
    (seriesDates txs).length = (imputedValues txs).length ∧
    (∀ i : ℕ, ∀ h : i < (seriesDates txs).length,
      (seriesDates txs).get ⟨i, h⟩ = minDay txs + i) ∧
    ((∃ t ∈ txs, sumDay txs t.day ≠ 0) → ∀ v ∈ imputedValues txs, v.isSome) := by
  refine ⟨?_, ?_, ?_, ?_⟩
  · rw [imputedValues, length_ffill, length_bfill, length_fillRoll, length_rawValues]
    rfl
  · simp [seriesDates, imputedValues, length_ffill, length_bfill, length_fillRoll,
      length_rawValues, numDays]
  · intro i h
    simp [seriesDates]
  · rintro ⟨t, ht, hnz⟩ v hv
    rcases rawValues_some_of_nonzero txs t ht hnz with ⟨k, hk, hsome⟩
    have hk' : k < (fillRoll (rawValues txs)).length := by
      rw [length_fillRoll]; exact hk
    have hfr : (fillRoll (rawValues txs))[k] = some (sumDay txs t.day) :=
      fillRoll_getElem_some _ k _ hk hsome hk'
    exact ffill_bfill_isSome _ k hk' (by rw [hfr]; rfl) v hv

/-- Witness for C1 on the scenario input. -/
theorem C1_witness :
    (imputedValues scenTxs).length = maxDay scenTxs - minDay scenTxs + 1 ∧
    (seriesDates scenTxs).length = (imputedValues scenTxs).length ∧
    (∀ i : ℕ, ∀ h : i < (seriesDates scenTxs).length,
      (seriesDates scenTxs).get ⟨i, h⟩ = minDay scenTxs + i) ∧
    ((∃ t ∈ scenTxs, sumDay scenTxs t.day ≠ 0) →
      ∀ v ∈ imputedValues scenTxs, v.isSome) :=
  C1_series_shape scenTxs (by simp [scenTxs])

/-! ## Claim C2 -/

/-- C2 fails as stated: on the series `[70, 7, 7, 7, 7, 7, 7, 0]`, the
claimed "rolling average over the preceding 7 days" of day 8 is 16
(days 1-7), but the code's `rolling(7)` window covers days 2-8 — day 8
itself being missing, only days 2-7 contribute — and imputes 7. -/
theorem C2_counterexample :
    imputedValues c2Txs =
      [some 70, some 7, some 7, some 7, some 7, some 7, some 7, some 7] ∧
    rollingMeanPrec7 (rawValues c2Txs) 7 = some 16 ∧
    (7 : ℚ) ≠ 16 := by
  refine ⟨?_, ?_, by norm_num⟩
  · norm_num [c2Txs, imputedValues, ffill, bfill, fillRoll, ffillAt, bfillAt, rollingMean,
      windowVals, rawValues, numDays, minDay, maxDay, agg, hasTx, sumDay, replaceZero,
      List.range_succ]
    norm_num [List.filterMap_cons, List.findSome?_cons]
    simp
  · norm_num [c2Txs, rollingMeanPrec7, rawValues, numDays, minDay, maxDay, agg, hasTx,
      sumDay, replaceZero, List.range_succ, List.filterMap_cons]

/-- C2 (amended): a zero amount is treated as missing, and a missing day
is imputed with the mean of the non-missing values in the trailing 7-day
window ending at the day itself (at most the 6 preceding days, that day
being missing), with bfill/ffill as fallback.  On `[10,0,20,10,0,10,30]`
day 2 becomes 10 (the rolling mean of day 1 alone), not zero; on
`[70,7,7,7,7,7,7,0]` day 8 becomes 7, drawing nothing from day 1 seven
days back. -/
theorem C2_zero_as_missing_rolling :
    rawValues scenTxs = [some 10, none, some 20, some 10, none, some 10, some 30] ∧
    imputedValues scenTxs =
      [some 10, some 10, some 20, some 10, some (40 / 3), some 10, some 30] ∧
    imputedValues c2Txs =
      [some 70, some 7, some 7, some 7, some 7, some 7, some 7, some 7] := by
  refine ⟨?_, ?_, ?_⟩
  · norm_num [scenTxs, rawValues, numDays, minDay, maxDay, agg, hasTx, sumDay,
      replaceZero, List.range_succ]
  · norm_num [scenTxs, imputedValues, ffill, bfill, fillRoll, ffillAt, bfillAt, rollingMean,
      windowVals, rawValues, numDays, minDay, maxDay, agg, hasTx, sumDay, replaceZero,
      List.range_succ]
    norm_num [List.filterMap_cons, List.findSome?_cons]
    simp
  · norm_num [c2Txs, imputedValues, ffill, bfill, fillRoll, ffillAt, bfillAt, rollingMean,
      windowVals, rawValues, numDays, minDay, maxDay, agg, hasTx, sumDay, replaceZero,
      List.range_succ]
    norm_num [List.filterMap_cons, List.findSome?_cons]
    simp

/-! ## Claim C7 -/

/-- C7 fails as stated: two zero-amount days give the output
`[NaN, NaN]`, not the all-zero series the claim describes. -/
theorem C7_counterexample :
    imputedValues [(⟨0, 0, 0⟩ : Tx), ⟨1, 0, 1⟩] = [none, none] ∧
    imputedValues [(⟨0, 0, 0⟩ : Tx), ⟨1, 0, 1⟩] ≠ [some 0, some 0] := by
  have h : imputedValues [(⟨0, 0, 0⟩ : Tx), ⟨1, 0, 1⟩] = [none, none] := by
    norm_num [imputedValues, ffill, bfill, fillRoll, ffillAt, bfillAt, rollingMean, windowVals,
      rawValues, numDays, minDay, maxDay, agg, hasTx, sumDay, replaceZero, List.range_succ]
  refine ⟨h, ?_⟩
  rw [h]
  simp

/-- C7 (amended): if every day of the input range has a zero or missing
aggregated amount, the Series Builder completes — without an error of its
own — but its output is the all-missing (`NaN`) series of the full range
length, not the all-zero series the claim describes; the pipeline then
fails at the model-fit stage, `auto_arima` rejecting a `NaN`-containing
series, so the degenerate case is not accepted as valid output either. -/
theorem C7_all_zero_becomes_all_missing (pred : ℕ → ℚ) (txs : List Tx)
    (horizon : ℤ) (hne : txs ≠ []) (hz : ∀ t ∈ txs, sumDay txs t.day = 0) :
    (∀ v ∈ imputedValues txs, v = none) ∧
    (imputedValues txs).length = numDays txs ∧
    predict pred ⟨true, true, txs⟩ horizon = .error .modelSelection := by
  have hall : ∀ v ∈ imputedValues txs, v = none := fun v hv =>
    ffill_all_none _ (bfill_all_none _ (fillRoll_all_none _ (rawValues_all_none txs hz))) v hv
  have hlen : (imputedValues txs).length = numDays txs := by
    rw [imputedValues, length_ffill, length_bfill, length_fillRoll, length_rawValues]
  refine ⟨hall, hlen, ?_⟩
  have hpos : 0 < (imputedValues txs).length := by
    rw [hlen]; unfold numDays; omega
  have hany : (imputedValues txs).any (fun v => v.isNone) = true := by
    refine List.any_eq_true.mpr ⟨(imputedValues txs)[0], List.getElem_mem hpos, ?_⟩
    rw [hall _ (List.getElem_mem hpos)]
    rfl
  unfold predict
  have h1 : (!(true && true)) = false := by simp
  rw [h1, if_neg (by simp)]
  have h2 : txs.isEmpty = false := by
    simpa [List.isEmpty_iff] using hne
  simp only [h2, Bool.false_eq_true, if_false, hany, if_true]

/-- Witness for C7 on a concrete all-zero input. -/
theorem C7_witness :
    (∀ v ∈ imputedValues [(⟨0, 0, 0⟩ : Tx), ⟨1, 0, 1⟩], v = none) ∧
    (imputedValues [(⟨0, 0, 0⟩ : Tx), ⟨1, 0, 1⟩]).length =
      numDays [(⟨0, 0, 0⟩ : Tx), ⟨1, 0, 1⟩] ∧
    predict (fun _ => (0 : ℚ)) ⟨true, true, [⟨0, 0, 0⟩, ⟨1, 0, 1⟩]⟩ 14 =
      .error .modelSelection :=
  C7_all_zero_becomes_all_missing (fun _ => (0 : ℚ)) [⟨0, 0, 0⟩, ⟨1, 0, 1⟩] 14
    (by simp)
    (by
      intro t ht
      fin_cases ht <;> norm_num [sumDay])

/-! ## Claim C10 -/

/-- C10: with a non-empty input, nonnegative amounts and at least one day
of strictly positive aggregated sales, every value of the output series
is present and strictly positive: zeros were turned into missing cells,
and rolling mean, backward fill and forward fill all draw from the
remaining strictly positive values. -/
theorem C10_imputed_positive (txs : List Tx) (hne : txs ≠ [])
    (hnn : ∀ t ∈ txs, 0 ≤ t.amount)
    (hpos : ∃ t ∈ txs, 0 < sumDay txs t.day) :
    ∀ v ∈ imputedValues txs, ∃ q : ℚ, v = some q ∧ 0 < q := by
  rcases hpos with ⟨t, ht, hp⟩
  rcases rawValues_some_of_nonzero txs t ht (ne_of_gt hp) with ⟨k, hk, hsome⟩
  have hk' : k < (fillRoll (rawValues txs)).length := by
    rw [length_fillRoll]; exact hk
  have hfr : (fillRoll (rawValues txs))[k] = some (sumDay txs t.day) :=
    fillRoll_getElem_some _ k _ hk hsome hk'
  intro v hv
  have hs : v.isSome := ffill_bfill_isSome _ k hk' (by rw [hfr]; rfl) v hv
  rcases Option.isSome_iff_exists.mp hs with ⟨q, rfl⟩
  refine ⟨q, rfl, ?_⟩
  exact fillRoll_pos _ (rawValues_pos txs hnn) q
    (bfill_somes_subset _ q (ffill_somes_subset _ q hv))

/-- Witness for C10: on the scenario input the value imputed for day 2 is
present and strictly positive. -/
theorem C10_witness :
    ∃ q : ℚ, some q ∈ imputedValues scenTxs ∧ 0 < q := by
  have hcomp : imputedValues scenTxs =
      [some 10, some 10, some 20, some 10, some (40 / 3), some 10, some 30] := by
    norm_num [scenTxs, imputedValues, ffill, bfill, fillRoll, ffillAt, bfillAt, rollingMean,
      windowVals, rawValues, numDays, minDay, maxDay, agg, hasTx, sumDay, replaceZero,
      List.range_succ]
    norm_num [List.filterMap_cons, List.findSome?_cons]
    simp
  have hmem : (some (10 : ℚ)) ∈ imputedValues scenTxs := by
    rw [hcomp]
    simp
  rcases C10_imputed_positive scenTxs (by simp [scenTxs])
    (by intro t ht; fin_cases ht <;> norm_num)
    ⟨⟨0, 10, 0⟩, by simp [scenTxs], by norm_num [sumDay, scenTxs]⟩
    (some 10) hmem with ⟨q, hq, hqpos⟩
  exact ⟨q, hq ▸ hmem, hqpos⟩

/-! ## Claim C8 -/

/-- C8 fails as stated: with actual window `[0, 10]` and fitted `[5, 10]`,
the zero-actual term is `|(0-5)/0| = inf` — numpy divides by zero with
only a runtime warning — so the computed MAPE is the unbounded value
`inf`: no `UndefinedMetricError` is raised and the term is not excluded. -/
theorem C8_counterexample :
    mape [0, 10] [5, 10] = .posInf ∧ PFloat.posInf ≠ PFloat.nan := by
  constructor
  · norm_num [mape, pmean, psum, pdivNat, pmul100, mapeTerm, pabs, pdiv, padd, isNan]
  · simp

/-- C8 (amended): a zero actual whose fitted value equals it contributes
a `NaN` term that pandas `mean` skips (so it is excluded); a zero actual
with any other fitted value contributes an infinite term and makes the
whole MAPE `inf`.  No error is raised in either case. -/
theorem C8_mape_zero_actual :
    (∀ acts fits : List ℚ, ∀ i : ℕ, ∀ a f : ℚ,
        acts[i]? = some a → fits[i]? = some f → a = 0 → f ≠ a →
        mape acts fits = .posInf) ∧
    mape [0, 10] [0, 5] = .fin 50 := by
  constructor
  · intro acts fits i a f ha hf ha0 hfa
    have hterm : (List.zipWith mapeTerm acts fits)[i]? = some (mapeTerm a f) :=
      List.getElem?_zipWith_eq_some.mpr ⟨a, f, ha, hf, rfl⟩
    have hpos : PFloat.posInf ∈ List.zipWith mapeTerm acts fits := by
      rw [← mapeTerm_posInf a f ha0 hfa]
      exact List.getElem?_mem hterm
    have hall : ∀ x ∈ List.zipWith mapeTerm acts fits, x ≠ PFloat.negInf := by
      intro x hx
      rw [← List.map_uncurry_zip_eq_zipWith] at hx
      rcases List.mem_map.mp hx with ⟨p, _, rfl⟩
      exact mapeTerm_ne_negInf p.1 p.2
    have hmf : PFloat.posInf ∈
        (List.zipWith mapeTerm acts fits).filter fun x => !isNan x :=
      List.mem_filter.mpr ⟨hpos, by decide⟩
    have hne' : ∀ x ∈ (List.zipWith mapeTerm acts fits).filter fun x => !isNan x,
        x ≠ PFloat.negInf := fun x hx => hall x (List.mem_filter.mp hx).1
    have hnn' : ∀ x ∈ (List.zipWith mapeTerm acts fits).filter fun x => !isNan x,
        x ≠ PFloat.nan := by
      intro x hx
      have hx2 := (List.mem_filter.mp hx).2
      intro hxn
      subst hxn
      simp [isNan] at hx2
    have hsum := psum_posInf _ hmf hne' hnn'
    have hemp : ((List.zipWith mapeTerm acts fits).filter
        fun x => !isNan x).isEmpty = false := by
      simpa [List.isEmpty_iff] using List.ne_nil_of_mem hmf
    unfold mape pmean
    simp only [hemp, Bool.false_eq_true, if_false, hsum]
    rfl
  · norm_num [mape, pmean, psum, pdivNat, pmul100, mapeTerm, pabs, pdiv, padd, isNan]
    rw [show |(1 : ℚ) / 2| = 1 / 2 from abs_of_pos (by norm_num)]
    norm_num

/-- Witness for the universally quantified half of C8's amended claim. -/
theorem C8_witness : mape [0, 1] [1, 1] = .posInf :=
  C8_mape_zero_actual.1 [0, 1] [1, 1] 0 0 1 rfl rfl rfl (by norm_num)

/-! ## Claim C9 -/

/-- C9 fails as stated: customers 1 and 2 both total 10, and the produced
top list is `[(2, 10), (1, 10)]` — `sort_values(ascending=False)` reverses
the ascending-identifier group order, so equal totals come out in
*descending* identifier order, not the claimed ascending order. -/
theorem C9_counterexample :
    top_clientes [⟨0, 10, 1⟩, ⟨0, 10, 2⟩] = [(2, 10), (1, 10)] ∧
    ¬ List.Pairwise (fun a b : ℕ × ℚ => b.2 < a.2 ∨ (a.2 = b.2 ∧ a.1 < b.1))
      (top_clientes [⟨0, 10, 1⟩, ⟨0, 10, 2⟩]) := by
  have h : top_clientes [⟨0, 10, 1⟩, ⟨0, 10, 2⟩] = [(2, 10), (1, 10)] := by
    norm_num [top_clientes, sortDescAmt, sortByAmt, ordInsertAmt, clientTotals, clientKeys,
      maxClient, clientTotal, List.range_succ]
  refine ⟨h, ?_⟩
  rw [h]
  norm_num [List.pairwise_cons]

/-- C9 (amended): the top-clients list is ordered by total sales weakly
descending, but equal totals are NOT ordered by ascending identifier —
the reverse of the argsort leaves ties in an order pandas does not
specify (identifier-descending in the counterexample, where numpy's
small-array insertion sort applies), so the claimed deterministic
ascending tie-break does not hold.  Only the tie-order-independent
descending-totals ordering is asserted for arbitrary inputs. -/
theorem C9_top_ordering (txs : List Tx) :
    List.Pairwise (fun a b : ℕ × ℚ => b.2 ≤ a.2) (top_clientes txs) := by
  unfold top_clientes sortDescAmt
  refine List.Pairwise.take ?_
  rw [List.pairwise_reverse]
  exact (sortByAmt_pairwise _ (clientTotals_pairwise txs)).imp
    fun h => AscAmt.le_snd h

end Sarima
